import Mathlib

/-!
Shallow embedding of the `treeprint` package (src/treeprint.go) and proofs
about it.

Modelling conventions:

* Go `any` payloads (`Value`, `Meta` fields) are modelled by the closed type
  `Val` (strings, integers, booleans); `fmt.Sprintf "%v"` is `Val.format` and
  `reflect.DeepEqual` is decidable structural equality on `Val`.  A Go `nil`
  interface in the `Meta` field is `Option.none`.
* A Go `*Node` is the inductive `Node` (fields `Meta`, `Value`, `Nodes`).
  The `Root` back-pointer of the source cannot live inside an inductive
  value, so the information the code reads through it is passed explicitly:
  `Root == nil` tests and the upward walk of `padding` (which, at each
  ancestor, only asks `isLast`, i.e. whether that ancestor is the last child
  of its own parent) are represented by a list `ancLast : List Bool`, the
  self-first sequence of those `isLast` answers; `ancLast = []` states
  `Root == nil`.  For trees built by the public API the parent pointers are
  consistent with the `Nodes` sequences, so during a render started at a
  parentless root this chain is exactly the path information the recursion
  already has, and the render functions thread it.
* The output sink (`io.Writer`) is modelled by returning the written
  character sequence as a `String`; Go's `[]byte`/`string` conversions are
  byte-identical copies, so `Bytes` and `String` are the same sequence.
-/

/-- Closed model of the Go `any` payloads stored in `Value`/`Meta`. -/
inductive Val where
  | str (s : String)
  | int (i : Int)
  | bool (b : Bool)
deriving DecidableEq, Repr

/-- Model of `fmt.Sprintf("%v", v)` on a `Val` payload. -/
def Val.format : Val → String
  | .str s => s
  | .int i => toString i
  | .bool b => if b then "true" else "false"

/-- Model of the Go struct `Node` (src/treeprint.go:62-67) without the
`Root` back pointer, which is represented contextually (see module
comment). -/
inductive Node where
  | mk (Meta : Option Val) (Value : Val) (Nodes : List Node)

/-- Field accessor for `Meta`. -/
def Node.Meta : Node → Option Val
  | .mk m _ _ => m

/-- Field accessor for `Value`. -/
def Node.Value : Node → Val
  | .mk _ v _ => v

/-- Field accessor for `Nodes`. -/
def Node.Nodes : Node → List Node
  | .mk _ _ ns => ns

/-- Process-wide indent width, `var IndentSize = 3` (src/treeprint.go:310),
kept at its default value. -/
def IndentSize : Nat := 3

/-- Vertical link glyph `EdgeTypeLink` (src/treeprint.go:304). -/
def EdgeTypeLink : String := "│"

/-- Mid-branch connector `EdgeTypeMid` (src/treeprint.go:305). -/
def EdgeTypeMid : String := "├─"

/-- End-branch connector `EdgeTypeEnd` (src/treeprint.go:306). -/
def EdgeTypeEnd : String := "└─"

/-- Model of `strings.Repeat(" ", n)`. -/
def spaces (n : Nat) : String := String.mk (List.replicate n ' ')

/-- The per-level segment both `printValues` (src/treeprint.go:229-235) and
`padding` (src/treeprint.go:284-288) emit: blank padding of width
`IndentSize + 1` when the level is ended (the node there was a last
sibling), otherwise the vertical link followed by `IndentSize` spaces. -/
def padSegment (lastSib : Bool) : String :=
  if lastSib then spaces (IndentSize + 1) else EdgeTypeLink ++ spaces IndentSize

/-- Model of `isEnded` (src/treeprint.go:247-254): linear scan of the
`levelsEnded` slice. -/
def isEnded : List Nat → Nat → Bool
  | [], _ => false
  | l :: rest, level => if l = level then true else isEnded rest level

/-- The prefix the loop at the top of `printValues` (src/treeprint.go:229-235)
writes: one `padSegment` per level `0 .. level-1`. -/
def linePrefix (level : Nat) (levelsEnded : List Nat) : String :=
  String.join ((List.range level).map fun i => padSegment (isEnded levelsEnded i))

/-- The loop body of `padding` (src/treeprint.go:283-291): walk the upward
chain, writing `links[level]` and decrementing `level` at each step.  The Go
code indexes a `[]string`; `List.set` out of range is a no-op where Go would
panic, but every use below has `chain.length = level + 1`, where the two
agree. -/
def paddingLoop : List Bool → Nat → List String → List String
  | [], _, links => links
  | b :: rest, level, links => paddingLoop rest (level - 1) (links.set level (padSegment b))

/-- Model of `padding` (src/treeprint.go:280-294).  `chain` is the self-first
list of `isLast` answers along the upward walk (see module comment). -/
def padding (level : Nat) (chain : List Bool) : String :=
  String.join (paddingLoop chain level (List.replicate (level + 1) ""))

/-- Character-level model of `strings.Split(s, "\n")`: cut the character
sequence at every newline.  Like the Go function it returns `[""]` for the
empty string and keeps empty fragments around adjacent or trailing
newlines. -/
def splitNl : List Char → List (List Char)
  | [] => [[]]
  | c :: cs =>
      if c = '\n' then [] :: splitNl cs
      else
        match splitNl cs with
        | [] => [[c]]
        | l :: ls => (c :: l) :: ls

/-- Model of `strings.Split(s, "\n")` on strings. -/
def splitLines (s : String) : List String := (splitNl s.data).map String.mk

/-- Model of `renderValue` (src/treeprint.go:256-273): single-line values are
returned as formatted; multi-line values have every line but the first
prefixed with `padding`. -/
def renderValue (level : Nat) (chain : List Bool) (node : Node) : String :=
  let lines := splitLines (Val.format node.Value)
  if lines.length < 2 then Val.format node.Value
  else
    let pad := padding level chain
    match lines with
    | [] => Val.format node.Value
    | l0 :: ls => String.intercalate "\n" (l0 :: ls.map fun l => pad ++ l)

/-- Model of `printValues` (src/treeprint.go:228-245): the level prefix, then
the connector, then the (bracketed-meta-prefixed) value and a newline. -/
def printValues (level : Nat) (levelsEnded : List Nat) (edge : String) (chain : List Bool)
    (node : Node) : String :=
  linePrefix level levelsEnded ++
    (match node.Meta with
     | some m => edge ++ " [" ++ Val.format m ++ "]  " ++ renderValue level chain node ++ "\n"
     | none => edge ++ " " ++ renderValue level chain node ++ "\n")

mutual
/-- Model of `printNodes` (src/treeprint.go:214-226).  The Go loop index test
`i == len(nodes)-1` is the singleton-tail case; only there `levelsEnded` is
extended (by value) and the `end` edge chosen.  `chain` is the upward
`isLast` chain of the parent of `nodes`; each node prepends its own
last-sibling status for its `printValues`/recursion. -/
def printNodes (level : Nat) (levelsEnded : List Nat) (chain : List Bool) :
    List Node → String
  | [] => ""
  | [node] =>
      printValues level (levelsEnded ++ [level]) EdgeTypeEnd (true :: chain) node ++
        (if node.Nodes.isEmpty then ""
         else printSub (level + 1) (levelsEnded ++ [level]) (true :: chain) node)
  | node :: next :: rest =>
      printValues level levelsEnded EdgeTypeMid (false :: chain) node ++
        ((if node.Nodes.isEmpty then ""
          else printSub (level + 1) levelsEnded (false :: chain) node) ++
          printNodes level levelsEnded chain (next :: rest))

/-- The recursive call `printNodes(w, level+1, levelsEnded, node.Nodes)` of
src/treeprint.go:223, factored so the recursion is structural. -/
def printSub (level : Nat) (levelsEnded : List Nat) (chain : List Bool) : Node → String
  | Node.mk _ _ ns => printNodes level levelsEnded chain ns
end

/-- Model of `(*Node).Writer` (src/treeprint.go:158-179).  `ancLast` is the
upward chain of the receiver; it is empty exactly when `n.Root == nil`. -/
def Node.Writer (ancLast : List Bool) (n : Node) : String :=
  if ancLast.isEmpty then
    ((match n.Meta with
      | some m => "[" ++ Val.format m ++ "]  " ++ Val.format n.Value
      | none => Val.format n.Value) ++ "\n") ++
      (if n.Nodes.isEmpty then "" else printNodes 0 [] ancLast n.Nodes)
  else
    if n.Nodes.isEmpty then printValues 0 [0] EdgeTypeEnd ancLast n
    else printValues 0 [] EdgeTypeMid ancLast n ++ printNodes 0 [] ancLast n.Nodes

/-- State-passing view of `Writer`: the written output together with the tree
after the call.  The render path (`Writer`, `printNodes`, `printValues`,
`renderValue`, `padding`, `isEnded`, src/treeprint.go:158-294) contains no
assignment to any `Node` field — `renderValue` mutates only the fresh local
slice produced by `strings.Split` — so the tree after the call is the
argument itself. -/
def Node.WriterSt (ancLast : List Bool) (n : Node) : String × Node :=
  (Node.Writer ancLast n, n)

/-- Model of `(*Node).Bytes` (src/treeprint.go:181-185): the buffer contents
after `Writer`; a Go `[]byte` is kept as the written character sequence
(byte-identical in Go). -/
def Node.Bytes (ancLast : List Bool) (n : Node) : String := Node.Writer ancLast n

/-- Model of `(*Node).String` (src/treeprint.go:187-189): `string(n.Bytes())`,
a byte-identical copy. -/
def Node.String (ancLast : List Bool) (n : Node) : String := Node.Bytes ancLast n

/-- Model of `FindLastNode` (src/treeprint.go:69-75). -/
def Node.FindLastNode : Node → Option Node
  | .mk _ _ ns => ns.getLast?

mutual
/-- Model of `(*Node).FindByMeta` (src/treeprint.go:134-144): scan the
children; on a `reflect.DeepEqual` match of the `Meta` field return that
child, otherwise search the child's subtree, otherwise continue with the
remaining children.  The `target` is the Go `any` argument (`none` models a
`nil` interface, which `DeepEqual` equates with a `nil` field). -/
def Node.FindByMeta (target : Option Val) : Node → Option Node
  | Node.mk _ _ ns => FindByMetaList target ns

/-- The loop of `FindByMeta` over a children slice. -/
def FindByMetaList (target : Option Val) : List Node → Option Node
  | [] => none
  | node :: rest =>
      if node.Meta = target then some node
      else
        match Node.FindByMeta target node with
        | some v => some v
        | none => FindByMetaList target rest
end

mutual
/-- Model of `(*Node).FindByValue` (src/treeprint.go:146-156).  Note the
recursion into a child's subtree calls `FindByMeta`, not `FindByValue`
(src/treeprint.go:151) — translated exactly as written. -/
def Node.FindByValue (value : Val) : Node → Option Node
  | Node.mk _ _ ns => FindByValueList value ns

/-- The loop of `FindByValue` over a children slice. -/
def FindByValueList (value : Val) : List Node → Option Node
  | [] => none
  | node :: rest =>
      if node.Value = value then some node
      else
        match Node.FindByMeta (some value) node with
        | some v => some v
        | none => FindByValueList value rest
end

mutual
/-- Model of `(*Node).VisitAll` (src/treeprint.go:203-212), defunctionalised:
the returned list is the sequence of nodes the visitor callback is invoked
on, in call order. -/
def Node.VisitAll : Node → List Node
  | Node.mk _ _ ns => VisitAllList ns

/-- The loop of `VisitAll` over a children slice: visit the child, then (if
it has children) its whole subtree, then the remaining children. -/
def VisitAllList : List Node → List Node
  | [] => []
  | node :: rest =>
      node :: ((if node.Nodes.isEmpty then [] else Node.VisitAll node) ++ VisitAllList rest)
end

/-- A node together with the contextual representation of its `Root`
back-pointer (see module comment): the self-first upward `isLast` chain,
empty exactly when `Root == nil`. -/
structure NodeRef where
  node : Node
  ancLast : List Bool

/-- Model of `(*Node).Branch` (src/treeprint.go:129-132): `n.Root = nil;
return n`.  Detaching the parent pointer empties the upward chain and leaves
every node field untouched. -/
def NodeRef.Branch (r : NodeRef) : NodeRef := NodeRef.mk r.node []

/-- One node line of a child walk, recording the `printValues` call made for
it by `printNodes` together with its position among its siblings: `sibs` is
the children slice it came from, `idx` its index there, and the remaining
fields are the arguments of the corresponding `printValues` call. -/
structure LineEv where
  sibs : List Node
  idx : Nat
  level : Nat
  ended : List Nat
  edge : String
  chain : List Bool
  node : Node

mutual
/-- Instrumented form of the `printNodes` loop (src/treeprint.go:214-226),
emitting one `LineEv` per `printValues` call instead of text.  It follows
`printNodes` line by line; `sibs` and `i` additionally record the full
sibling slice being walked and the loop index. -/
def nodesTraceAux (sibs : List Node) (level : Nat) (ended : List Nat) (chain : List Bool)
    (i : Nat) : List Node → List LineEv
  | [] => []
  | [node] =>
      LineEv.mk sibs i level (ended ++ [level]) EdgeTypeEnd (true :: chain) node ::
        (if node.Nodes.isEmpty then []
         else subTrace (level + 1) (ended ++ [level]) (true :: chain) node)
  | node :: next :: rest =>
      LineEv.mk sibs i level ended EdgeTypeMid (false :: chain) node ::
        ((if node.Nodes.isEmpty then []
          else subTrace (level + 1) ended (false :: chain) node) ++
          nodesTraceAux sibs level ended chain (i + 1) (next :: rest))

/-- Instrumented form of the recursive call of src/treeprint.go:223. -/
def subTrace (level : Nat) (ended : List Nat) (chain : List Bool) : Node → List LineEv
  | Node.mk _ _ ns => nodesTraceAux ns level ended chain 0 ns
end

/-- The line events of a whole child walk, in emission order. -/
def nodesTrace (level : Nat) (ended : List Nat) (chain : List Bool) (ns : List Node) :
    List LineEv :=
  nodesTraceAux ns level ended chain 0 ns

/-- The text a recorded `printValues` call writes. -/
def emitEv (ev : LineEv) : String :=
  printValues ev.level ev.ended ev.edge ev.chain ev.node

/-- Consistency of a `levelsEnded` slice with an upward last-sibling chain at
the entry of a child walk at depth `level`: the chain (self-first for the
parent of the walked nodes, so `chain.reverse` is root-first, indexed by
depth) has one entry per depth below `level`, and a depth is in the
ended-levels slice exactly when the render-path node at that depth was a
last sibling. -/
def chainConsistent (level : Nat) (ended : List Nat) (chain : List Bool) : Prop :=
  chain.length = level ∧ ∀ d, (isEnded ended d = true ↔ chain.reverse[d]? = some true)
section Helpers

theorem stringFoldlAppend (l : List String) (a : String) :
    List.foldl (fun r s => r ++ s) a l = a ++ List.foldl (fun r s => r ++ s) "" l := by
  induction l generalizing a with
  | nil => simp
  | cons s rest ih =>
      simp only [List.foldl_cons]
      rw [ih (a ++ s), ih ("" ++ s), String.empty_append, String.append_assoc]

theorem stringJoin_cons (s : String) (l : List String) :
    String.join (s :: l) = s ++ String.join l := by
  simp only [String.join, List.foldl_cons]
  rw [stringFoldlAppend l ("" ++ s), String.empty_append]

theorem stringJoin_append (l1 l2 : List String) :
    String.join (l1 ++ l2) = String.join l1 ++ String.join l2 := by
  induction l1 with
  | nil => simp [String.join]
  | cons s l ih => simp [stringJoin_cons, ih, String.append_assoc]

theorem take_set_of_le {α : Type} (a : α) (l : List α) (i n : Nat) (h : n ≤ i) :
    (l.set i a).take n = l.take n := by
  induction l generalizing i n with
  | nil => simp
  | cons x xs ih =>
      cases i with
      | zero =>
          have : n = 0 := Nat.le_zero.mp h
          simp [this]
      | succ j =>
          cases n with
          | zero => simp
          | succ m =>
              simp only [List.set, List.take_succ_cons]
              rw [ih j m (Nat.le_of_succ_le_succ h)]

theorem drop_set_self {α : Type} (a : α) (l : List α) (i : Nat) (h : i < l.length) :
    (l.set i a).drop i = a :: l.drop (i + 1) := by
  induction l generalizing i with
  | nil => simp at h
  | cons x xs ih =>
      cases i with
      | zero => simp
      | succ j =>
          simp only [List.set, List.drop_succ_cons]
          exact ih j (Nat.lt_of_succ_lt_succ h)

theorem paddingLoop_spec (chain : List Bool) (level : Nat) (links : List String)
    (hlen : chain.length ≤ level + 1) (hlinks : level < links.length) :
    paddingLoop chain level links =
      links.take (level + 1 - chain.length) ++ chain.reverse.map padSegment ++
        links.drop (level + 1) := by
  induction chain generalizing level links with
  | nil =>
      simp [paddingLoop, List.take_append_drop]
  | cons b rest ih =>
      cases level with
      | zero =>
          cases rest with
          | cons y ys => simp at hlen
          | nil =>
              cases links with
              | nil => simp at hlinks
              | cons x xs => simp [paddingLoop]
      | succ k =>
          have h1 : rest.length ≤ k + 1 := by simpa using hlen
          have h2 : k < (links.set (k + 1) (padSegment b)).length := by
            simp only [List.length_set]; omega
          rw [paddingLoop, Nat.add_sub_cancel, ih k (links.set (k + 1) (padSegment b)) h1 h2]
          rw [take_set_of_le (padSegment b) links (k + 1) (k + 1 - rest.length) (by omega)]
          rw [drop_set_self (padSegment b) links (k + 1) (by omega)]
          simp [List.reverse_cons, List.map_append, List.append_assoc]

theorem padding_eq_chain (level : Nat) (chain : List Bool) (h : chain.length = level + 1) :
    padding level chain = String.join (chain.reverse.map padSegment) := by
  rw [padding, paddingLoop_spec chain level (List.replicate (level + 1) "") (by omega) (by simp)]
  simp [h]

end Helpers

theorem printNodes_eq_trace_aux (sibs : List Node) (level : Nat) (ended : List Nat)
    (chain : List Bool) (i : Nat) (rem : List Node) :
    printNodes level ended chain rem =
      String.join ((nodesTraceAux sibs level ended chain i rem).map emitEv) := by
  refine nodesTraceAux.induct
    (fun sibs level ended chain i rem =>
      printNodes level ended chain rem =
        String.join ((nodesTraceAux sibs level ended chain i rem).map emitEv))
    (fun level ended chain node =>
      printSub level ended chain node =
        String.join ((subTrace level ended chain node).map emitEv))
    ?_ ?_ ?_ ?_ sibs level ended chain i rem
  · intro level ended chain m v ns ih
    simpa only [printSub, subTrace] using ih
  · intro sibs level ended chain i
    simp [printNodes, nodesTraceAux, String.join]
  · intro sibs level ended chain i node ih
    simp only [printNodes, nodesTraceAux, List.map_cons, stringJoin_cons, emitEv]
    by_cases hc : node.Nodes.isEmpty
    · simp [hc, String.join]
    · simp [hc, ih]
  · intro sibs level ended chain i node next rest ih1 ih2
    simp only [printNodes, nodesTraceAux, List.map_cons, List.map_append, stringJoin_cons,
      stringJoin_append, emitEv]
    by_cases hc : node.Nodes.isEmpty
    · simp [hc, ih2, String.join, String.empty_append]
    · simp [hc, ih1, ih2, String.append_assoc]

theorem printNodes_eq_trace (level : Nat) (ended : List Nat) (chain : List Bool)
    (ns : List Node) :
    printNodes level ended chain ns =
      String.join ((nodesTrace level ended chain ns).map emitEv) :=
  printNodes_eq_trace_aux ns level ended chain 0 ns

theorem traceAux_position (sibs : List Node) (level : Nat) (ended : List Nat)
    (chain : List Bool) (i : Nat) (rem : List Node) (hdrop : sibs.drop i = rem) :
    ∀ ev ∈ nodesTraceAux sibs level ended chain i rem,
      ev.sibs[ev.idx]? = some ev.node ∧
        (ev.edge = EdgeTypeEnd ↔ ev.idx + 1 = ev.sibs.length) ∧
        (ev.edge = EdgeTypeMid ↔ ¬ev.idx + 1 = ev.sibs.length) := by
  refine nodesTraceAux.induct
    (fun sibs level ended chain i rem =>
      sibs.drop i = rem →
        ∀ ev ∈ nodesTraceAux sibs level ended chain i rem,
          ev.sibs[ev.idx]? = some ev.node ∧
            (ev.edge = EdgeTypeEnd ↔ ev.idx + 1 = ev.sibs.length) ∧
            (ev.edge = EdgeTypeMid ↔ ¬ev.idx + 1 = ev.sibs.length))
    (fun level ended chain node =>
      ∀ ev ∈ subTrace level ended chain node,
        ev.sibs[ev.idx]? = some ev.node ∧
          (ev.edge = EdgeTypeEnd ↔ ev.idx + 1 = ev.sibs.length) ∧
          (ev.edge = EdgeTypeMid ↔ ¬ev.idx + 1 = ev.sibs.length))
    ?_ ?_ ?_ ?_ sibs level ended chain i rem hdrop
  · intro level ended chain m v ns ih
    simpa only [subTrace] using ih rfl
  · intro sibs level ended chain i _ ev hev
    simp [nodesTraceAux] at hev
  · intro sibs level ended chain i node ih hdrop ev hev
    have hlt : i < sibs.length := by
      by_contra hcon
      rw [List.drop_eq_nil_of_le (by omega)] at hdrop
      exact List.noConfusion hdrop
    have hlen : sibs.length = i + 1 := by
      have h1 : (sibs.drop i).length = 1 := by rw [hdrop]; rfl
      rw [List.length_drop] at h1
      omega
    have hget : sibs[i]? = some node := by
      have h0 : (sibs.drop i)[0]? = some node := by rw [hdrop]; rfl
      rwa [List.getElem?_drop, Nat.add_zero] at h0
    rw [nodesTraceAux] at hev
    rcases List.mem_cons.mp hev with h | h
    · subst h
      dsimp only
      refine ⟨hget, ?_, ?_⟩
      · simp [hlen]
      · constructor
        · intro hmid
          exact absurd hmid (by decide)
        · intro hne
          exact absurd hlen.symm hne
    · by_cases hc : node.Nodes.isEmpty
      · rw [if_pos hc] at h
        exact absurd h (List.not_mem_nil ev)
      · rw [if_neg hc] at h
        exact ih ev h
  · intro sibs level ended chain i node next rest ih1 ih2 hdrop ev hev
    have hlt : i < sibs.length := by
      by_contra hcon
      rw [List.drop_eq_nil_of_le (by omega)] at hdrop
      exact List.noConfusion hdrop
    have hlen : i + 1 < sibs.length := by
      have h1 : (sibs.drop i).length = rest.length + 2 := by rw [hdrop]; simp
      rw [List.length_drop] at h1
      omega
    have hget : sibs[i]? = some node := by
      have h0 : (sibs.drop i)[0]? = some node := by rw [hdrop]; rfl
      rwa [List.getElem?_drop, Nat.add_zero] at h0
    have hdrop1 : sibs.drop (i + 1) = next :: rest := by
      rw [← List.tail_drop, hdrop]
      rfl
    rw [nodesTraceAux] at hev
    rcases List.mem_cons.mp hev with h | h
    · subst h
      dsimp only
      refine ⟨hget, ?_, ?_⟩
      · constructor
        · intro hmid
          exact absurd hmid (by decide)
        · intro heq
          omega
      · constructor
        · intro _
          omega
        · intro _
          rfl
    · rcases List.mem_append.mp h with h | h
      · by_cases hc : node.Nodes.isEmpty
        · rw [if_pos hc] at h
          exact absurd h (List.not_mem_nil ev)
        · rw [if_neg hc] at h
          exact ih1 ev h
      · exact ih2 hdrop1 ev h

theorem isEnded_append (l1 l2 : List Nat) (d : Nat) :
    isEnded (l1 ++ l2) d = (isEnded l1 d || isEnded l2 d) := by
  induction l1 with
  | nil => simp [isEnded]
  | cons x xs ih =>
      simp only [List.cons_append, isEnded]
      by_cases hx : x = d
      · simp [hx]
      · simp [hx, ih]

theorem isEnded_singleton (x d : Nat) :
    isEnded [x] d = decide (x = d) := by
  by_cases hx : x = d
  · simp [isEnded, hx]
  · simp [isEnded, hx]

theorem chainConsistent_last (level : Nat) (ended : List Nat) (chain : List Bool)
    (h : chainConsistent level ended chain) :
    chainConsistent (level + 1) (ended ++ [level]) (true :: chain) := by
  obtain ⟨hlen, hiff⟩ := h
  constructor
  · simp [hlen]
  · intro d
    rw [isEnded_append, isEnded_singleton, List.reverse_cons]
    rcases Nat.lt_trichotomy d level with hd | hd | hd
    · rw [List.getElem?_append, if_pos (by simp [hlen]; omega)]
      have : decide (level = d) = false := by simp; omega
      rw [this, Bool.or_false]
      exact hiff d
    · subst hd
      rw [List.getElem?_append_right (by simp [hlen])]
      simp [hlen]
    · rw [List.getElem?_eq_none (by simp [hlen]; omega)]
      have h1 : isEnded ended d = false := by
        by_contra hcon
        have h2 := (hiff d).mp (by
          cases hie : isEnded ended d
          · exact absurd hie hcon
          · rfl)
        rw [List.getElem?_eq_none (by simp [hlen]; omega)] at h2
        exact Option.noConfusion h2
      have h3 : decide (level = d) = false := by simp; omega
      simp [h1, h3]

theorem chainConsistent_mid (level : Nat) (ended : List Nat) (chain : List Bool)
    (h : chainConsistent level ended chain) :
    chainConsistent (level + 1) ended (false :: chain) := by
  obtain ⟨hlen, hiff⟩ := h
  constructor
  · simp [hlen]
  · intro d
    rw [List.reverse_cons]
    rcases Nat.lt_trichotomy d level with hd | hd | hd
    · rw [List.getElem?_append, if_pos (by simp [hlen]; omega)]
      exact hiff d
    · subst hd
      rw [List.getElem?_append_right (by simp [hlen])]
      have h1 : isEnded ended d = false := by
        by_contra hcon
        have h2 := (hiff d).mp (by
          cases hie : isEnded ended d
          · exact absurd hie hcon
          · rfl)
        rw [List.getElem?_eq_none (by simp [hlen])] at h2
        exact Option.noConfusion h2
      simp [h1, hlen]
    · rw [List.getElem?_eq_none (by simp [hlen]; omega)]
      have h1 : isEnded ended d = false := by
        by_contra hcon
        have h2 := (hiff d).mp (by
          cases hie : isEnded ended d
          · exact absurd hie hcon
          · rfl)
        rw [List.getElem?_eq_none (by simp [hlen]; omega)] at h2
        exact Option.noConfusion h2
      simp [h1]

theorem traceAux_chain (sibs : List Node) (level : Nat) (ended : List Nat)
    (chain : List Bool) (i : Nat) (rem : List Node)
    (hcc : chainConsistent level ended chain) :
    ∀ ev ∈ nodesTraceAux sibs level ended chain i rem,
      chainConsistent (ev.level + 1) ev.ended ev.chain := by
  refine nodesTraceAux.induct
    (fun sibs level ended chain i rem =>
      chainConsistent level ended chain →
        ∀ ev ∈ nodesTraceAux sibs level ended chain i rem,
          chainConsistent (ev.level + 1) ev.ended ev.chain)
    (fun level ended chain node =>
      chainConsistent level ended chain →
        ∀ ev ∈ subTrace level ended chain node,
          chainConsistent (ev.level + 1) ev.ended ev.chain)
    ?_ ?_ ?_ ?_ sibs level ended chain i rem hcc
  · intro level ended chain m v ns ih hcc2
    simpa only [subTrace] using ih hcc2
  · intro sibs level ended chain i _ ev hev
    simp [nodesTraceAux] at hev
  · intro sibs level ended chain i node ih hcc2 ev hev
    rw [nodesTraceAux] at hev
    rcases List.mem_cons.mp hev with h | h
    · subst h
      exact chainConsistent_last level ended chain hcc2
    · by_cases hc : node.Nodes.isEmpty
      · rw [if_pos hc] at h
        exact absurd h (List.not_mem_nil ev)
      · rw [if_neg hc] at h
        exact ih (chainConsistent_last level ended chain hcc2) ev h
  · intro sibs level ended chain i node next rest ih1 ih2 hcc2 ev hev
    rw [nodesTraceAux] at hev
    rcases List.mem_cons.mp hev with h | h
    · subst h
      exact chainConsistent_mid level ended chain hcc2
    · rcases List.mem_append.mp h with h | h
      · by_cases hc : node.Nodes.isEmpty
        · rw [if_pos hc] at h
          exact absurd h (List.not_mem_nil ev)
        · rw [if_neg hc] at h
          exact ih1 (chainConsistent_mid level ended chain hcc2) ev h
      · exact ih2 hcc2 ev h

theorem chainConsistent_root : chainConsistent 0 [] [] := by
  constructor
  · rfl
  · intro d
    simp [isEnded]

theorem trace_chain (ns : List Node) :
    ∀ ev ∈ nodesTrace 0 [] [] ns, chainConsistent (ev.level + 1) ev.ended ev.chain :=
  traceAux_chain ns 0 [] [] 0 ns chainConsistent_root

theorem findByMetaList_sizeOf (target : Option Val) (ns : List Node) (m : Node)
    (h : FindByMetaList target ns = some m) : sizeOf m < sizeOf ns := by
  refine FindByMetaList.induct target
    (fun n => ∀ m, Node.FindByMeta target n = some m → sizeOf m < sizeOf n)
    (fun ns => ∀ m, FindByMetaList target ns = some m → sizeOf m < sizeOf ns)
    ?_ ?_ ?_ ?_ ?_ ns m h
  · intro mt v cs ih w hw
    rw [Node.FindByMeta] at hw
    have := ih w hw
    simp only [Node.mk.sizeOf_spec]
    omega
  · intro w hw
    rw [FindByMetaList] at hw
    exact Option.noConfusion hw
  · intro node rest hmeta w hw
    rw [FindByMetaList, if_pos hmeta] at hw
    obtain rfl := Option.some.inj hw
    simp only [List.cons.sizeOf_spec]
    omega
  · intro node rest hmeta v hv ih w hw
    rw [FindByMetaList, if_neg hmeta, hv] at hw
    have h1 := ih v hv
    obtain rfl := Option.some.inj hw
    simp only [List.cons.sizeOf_spec]
    omega
  · intro node rest hmeta hnone ihn ihl w hw
    rw [FindByMetaList, if_neg hmeta, hnone] at hw
    have h1 := ihl w hw
    simp only [List.cons.sizeOf_spec]
    omega

theorem findByMetaNode_sizeOf (target : Option Val) (n m : Node)
    (h : Node.FindByMeta target n = some m) : sizeOf m < sizeOf n := by
  cases n with
  | mk mt v ns =>
      rw [Node.FindByMeta] at h
      have := findByMetaList_sizeOf target ns m h
      simp only [Node.mk.sizeOf_spec]
      omega

theorem findByValueList_sizeOf (value : Val) (ns : List Node) (m : Node)
    (h : FindByValueList value ns = some m) : sizeOf m < sizeOf ns := by
  refine FindByValueList.induct value
    (fun ns => ∀ m, FindByValueList value ns = some m → sizeOf m < sizeOf ns)
    ?_ ?_ ?_ ?_ ns m h
  · intro w hw
    rw [FindByValueList] at hw
    exact Option.noConfusion hw
  · intro node rest hval w hw
    rw [FindByValueList, if_pos hval] at hw
    obtain rfl := Option.some.inj hw
    simp only [List.cons.sizeOf_spec]
    omega
  · intro node rest hval v hv w hw
    rw [FindByValueList, if_neg hval, hv] at hw
    have h1 := findByMetaNode_sizeOf (some value) node v hv
    obtain rfl := Option.some.inj hw
    simp only [List.cons.sizeOf_spec]
    omega
  · intro node rest hval hnone ihl w hw
    rw [FindByValueList, if_neg hval, hnone] at hw
    have h1 := ihl w hw
    simp only [List.cons.sizeOf_spec]
    omega

theorem findByValueNode_sizeOf (value : Val) (n m : Node)
    (h : Node.FindByValue value n = some m) : sizeOf m < sizeOf n := by
  cases n with
  | mk mt v ns =>
      rw [Node.FindByValue] at h
      have := findByValueList_sizeOf value ns m h
      simp only [Node.mk.sizeOf_spec]
      omega

theorem visitAllList_sizeOf (ns : List Node) (m : Node) (h : m ∈ VisitAllList ns) :
    sizeOf m < sizeOf ns := by
  refine VisitAllList.induct
    (fun n => ∀ m, m ∈ Node.VisitAll n → sizeOf m < sizeOf n)
    (fun ns => ∀ m, m ∈ VisitAllList ns → sizeOf m < sizeOf ns)
    ?_ ?_ ?_ ns m h
  · intro mt v cs ih w hw
    rw [Node.VisitAll] at hw
    have := ih w hw
    simp only [Node.mk.sizeOf_spec]
    omega
  · intro w hw
    rw [VisitAllList] at hw
    exact absurd hw (List.not_mem_nil w)
  · intro node rest ihn ihl w hw
    rw [VisitAllList] at hw
    rcases List.mem_cons.mp hw with hh | hh
    · subst hh
      simp only [List.cons.sizeOf_spec]
      omega
    · rcases List.mem_append.mp hh with hh | hh
      · by_cases hc : node.Nodes.isEmpty
        · rw [if_pos hc] at hh
          exact absurd hh (List.not_mem_nil w)
        · rw [if_neg hc] at hh
          have := ihn w hh
          simp only [List.cons.sizeOf_spec]
          omega
      · have := ihl w hh
        simp only [List.cons.sizeOf_spec]
        omega

theorem visitAll_empty (n : Node) (h : n.Nodes.isEmpty = true) : Node.VisitAll n = [] := by
  cases n with
  | mk mt v ns =>
      cases ns with
      | nil => rfl
      | cons x xs => simp [Node.Nodes] at h

theorem visitAllList_flatMap (ns : List Node) :
    VisitAllList ns = ns.flatMap (fun c => c :: Node.VisitAll c) := by
  induction ns with
  | nil => rfl
  | cons node rest ih =>
      rw [VisitAllList, List.flatMap_cons, ih]
      by_cases hc : node.Nodes.isEmpty
      · rw [if_pos hc, visitAll_empty node hc]
        rfl
      · rw [if_neg hc]
        rfl

def c1Grand : Node := Node.mk none (Val.str "b") []

def c1Child : Node := Node.mk none (Val.str "a") [c1Grand]

def c1Root : Node := Node.mk none (Val.str ".") [c1Child]

def c1MetaGrand : Node := Node.mk (some (Val.str "m")) (Val.str "g") []

def c1MetaChild : Node := Node.mk none (Val.str "a") [c1MetaGrand]

def c1MetaRoot : Node := Node.mk none (Val.str ".") [c1MetaChild]

/-- C1: the claim states that `FindByValue` returns the first pre-order node
whose value equals the target and null when no descendant value matches.
The code instead recurses through `FindByMeta` (src/treeprint.go:151), which
compares `Meta` fields: the grandchild `c1Grand` of `c1Root` has value
`"b"`, yet `FindByValue "b"` returns null; and searching `c1MetaRoot` for
the value `"m"` returns the grandchild whose value is `"g"`, merely because
its metadata is `"m"`.  This contradicts the claim and the function's own
documentation (src/treeprint.go:39-41), evaluated here at both failing
inputs. -/
theorem c1_findByValue_depth_bug :
    Node.FindByValue (Val.str "b") c1Root = none ∧
      c1Root.Nodes = [c1Child] ∧ c1Child.Nodes = [c1Grand] ∧
      c1Grand.Value = Val.str "b" ∧
      Node.FindByValue (Val.str "m") c1MetaRoot = some c1MetaGrand ∧
      c1MetaGrand.Value = Val.str "g" :=
  ⟨rfl, rfl, rfl, rfl, rfl, rfl⟩

/-- C5: rendering is idempotent and mutates nothing.  `Node.WriterSt` pairs
the written output with the tree after the call, which is the argument
itself because the render path of the source contains no assignment to any
node field; hence rendering the tree a second time (that is, rendering the
tree the first render leaves behind) writes the same output, for each of
`Writer`, `Bytes` and `String`.  Every `Node` value is constructible by the
public add-operations (`AddNode`/`AddBranch` and the meta variants append an
arbitrary child, recursively), so quantifying over `Node` covers all trees
built solely via them. -/
theorem c5_render_idempotent_no_mutation (ancLast : List Bool) (t : Node) :
    (Node.WriterSt ancLast t).2 = t ∧
      (Node.WriterSt ancLast ((Node.WriterSt ancLast t).2)).1 =
        (Node.WriterSt ancLast t).1 ∧
      Node.Bytes ancLast ((Node.WriterSt ancLast t).2) = Node.Bytes ancLast t ∧
      Node.String ancLast ((Node.WriterSt ancLast t).2) = Node.String ancLast t :=
  ⟨rfl, rfl, rfl, rfl⟩

/-- C6: a node line carries the bracketed metadata prefix exactly when the
`Meta` field is set: with `Meta = some m` the line is the level prefix, the
connector, a space, `[`, the metadata, `]`, two spaces and the value; with
`Meta = none` the bracket group is absent.  Since absence is the `none`
case of the exhaustive match, a present-but-falsy metadata (`0`, `false`)
still gets its bracket, as the concrete renders show; metadata `1` with
value `"x"` renders as `[1]  x` after the connector and a space. -/
theorem c6_meta_bracket (level : Nat) (ended : List Nat) (edge : String) (chain : List Bool) :
    (∀ m v ns, printValues level ended edge chain (Node.mk (some m) v ns) =
        linePrefix level ended ++
          (edge ++ " [" ++ Val.format m ++ "]  " ++
            renderValue level chain (Node.mk (some m) v ns) ++ "\n")) ∧
      (∀ v ns, printValues level ended edge chain (Node.mk none v ns) =
          linePrefix level ended ++
            (edge ++ " " ++ renderValue level chain (Node.mk none v ns) ++ "\n")) ∧
      Node.String [] (Node.mk none (Val.str ".") [Node.mk (some (Val.int 1)) (Val.str "x") []]) =
        ".\n" ++ EdgeTypeEnd ++ " [1]  x\n" ∧
      Node.String [] (Node.mk none (Val.str ".") [Node.mk (some (Val.int 0)) (Val.str "x") []]) =
        ".\n" ++ EdgeTypeEnd ++ " [0]  x\n" ∧
      Node.String [] (Node.mk none (Val.str ".") [Node.mk (some (Val.bool false)) (Val.str "x") []]) =
        ".\n" ++ EdgeTypeEnd ++ " [false]  x\n" :=
  ⟨fun _ _ _ => rfl, fun _ _ => rfl, rfl, rfl, rfl⟩

/-- C7: the visit sequence of `VisitAll` is each direct child immediately
followed by that child's entire visit sequence, in child order, and the
receiver itself is never visited (every visited node is a strict descendant,
of smaller size). -/
theorem c7_visitAll_order (n : Node) :
    Node.VisitAll n = n.Nodes.flatMap (fun c => c :: Node.VisitAll c) ∧
      n ∉ Node.VisitAll n := by
  constructor
  · cases n with
    | mk mt v ns =>
        rw [Node.VisitAll, Node.Nodes]
        exact visitAllList_flatMap ns
  · intro hmem
    cases n with
    | mk mt v ns =>
        rw [Node.VisitAll] at hmem
        have h1 := visitAllList_sizeOf ns _ hmem
        simp only [Node.mk.sizeOf_spec] at h1
        omega

def c7Tree : Node :=
  Node.mk none (Val.str "r")
    [Node.mk none (Val.str "a") [Node.mk none (Val.str "b") []],
     Node.mk none (Val.str "c") []]

/-- Witness for C7 at a concrete two-level tree. -/
theorem c7_visitAll_order_witness :
    Node.VisitAll c7Tree = c7Tree.Nodes.flatMap (fun c => c :: Node.VisitAll c) ∧
      c7Tree ∉ Node.VisitAll c7Tree :=
  c7_visitAll_order c7Tree

/-- C8: `Branch` empties the upward parent chain and returns the same node:
it is idempotent, leaves the node's fields (`Meta`, `Value`, `Nodes`)
untouched, and is the identity on a reference that is already parentless. -/
theorem c8_branch_detach (r : NodeRef) :
    NodeRef.Branch (NodeRef.Branch r) = NodeRef.Branch r ∧
      (NodeRef.Branch r).node = r.node ∧
      (NodeRef.Branch r).node.Meta = r.node.Meta ∧
      (NodeRef.Branch r).node.Value = r.node.Value ∧
      (NodeRef.Branch r).node.Nodes = r.node.Nodes ∧
      (NodeRef.Branch r).ancLast = [] ∧
      (r.ancLast = [] → NodeRef.Branch r = r) := by
  refine ⟨rfl, rfl, rfl, rfl, rfl, rfl, ?_⟩
  intro h
  cases r with
  | mk nd al =>
      dsimp only at h
      subst h
      rfl

def c8Leaf : Node := Node.mk none (Val.str "n") []

/-- Witness for C8: on a parentless reference `Branch` is the identity. -/
theorem c8_branch_detach_witness :
    NodeRef.Branch (NodeRef.mk c8Leaf []) = NodeRef.mk c8Leaf [] :=
  (c8_branch_detach (NodeRef.mk c8Leaf [])).2.2.2.2.2.2 rfl

/-- C9: the three render variants agree: `String` is (the decoding of)
`Bytes`, and `Bytes` is exactly the sequence `Writer` writes to its sink,
for the same tree and the same parent context; in Go both conversions are
byte-identical copies, modelled as identities on the written sequence. -/
theorem c9_render_variants_agree (ancLast : List Bool) (n : Node) :
    Node.String ancLast n = Node.Bytes ancLast n ∧
      Node.Bytes ancLast n = Node.Writer ancLast n :=
  ⟨rfl, rfl⟩

/-- C10: both search operations examine only strict descendants: neither
ever returns the receiver (every result is of strictly smaller size), even
when the receiver's own metadata or value equals the target, and on a leaf
both return null. -/
theorem c10_find_strict_descendants (n : Node) (tm : Option Val) (tv : Val) :
    Node.FindByMeta tm n ≠ some n ∧
      Node.FindByValue tv n ≠ some n ∧
      (n.Nodes = [] → Node.FindByMeta tm n = none ∧ Node.FindByValue tv n = none) := by
  refine ⟨?_, ?_, ?_⟩
  · intro h
    exact absurd (findByMetaNode_sizeOf tm n n h) (lt_irrefl _)
  · intro h
    exact absurd (findByValueNode_sizeOf tv n n h) (lt_irrefl _)
  · intro h
    cases n with
    | mk mt v ns =>
        rw [Node.Nodes] at h
        subst h
        exact ⟨rfl, rfl⟩

/-- Witness for C10 at a leaf whose metadata and value both equal the
searched payloads: both searches still return null. -/
theorem c10_find_strict_descendants_witness :
    Node.FindByMeta (some (Val.str "x")) (Node.mk (some (Val.str "x")) (Val.str "x") []) = none ∧
      Node.FindByValue (Val.str "x") (Node.mk (some (Val.str "x")) (Val.str "x") []) = none :=
  (c10_find_strict_descendants (Node.mk (some (Val.str "x")) (Val.str "x") [])
    (some (Val.str "x")) (Val.str "x")).2.2 rfl

def c2Child : Node := Node.mk none (Val.str "c") []

def c2Sub : Node := Node.mk none (Val.str "a") [c2Child]

/-- C2 counterexample: render started at `c2Sub`, a sub-node that still has
a parent and is the last element of its parent's children sequence (upward
chain `[true]`).  The claim requires its own line to use the end connector;
the code (src/treeprint.go:169-174) chooses by childlessness instead, so
the line starts with the mid connector and the output does not start with
the end connector. -/
theorem c2_counterexample :
    Node.Writer [true] c2Sub = "├─ a\n└─ c\n" ∧
      ¬∃ rest, Node.Writer [true] c2Sub = EdgeTypeEnd ++ rest := by
  constructor
  · rfl
  · rintro ⟨rest, hr⟩
    have h2 : "├─ a\n└─ c\n" = EdgeTypeEnd ++ rest := hr
    have hd := congrArg (fun s => s.data.head?) h2
    simp only [String.data_append] at hd
    rw [List.head?_append] at hd
    have hd2 : some '├' = some '└' := hd
    exact absurd hd2 (by decide)

/-- C2 (amended): in every child walk (`printNodes`), whose output is
exactly the concatenation of its recorded `printValues` lines, each node's
own line gets exactly one of the two connectors, and the end connector if
and only if the node is the last element of its sibling slice at render
time; when a render starts at a sub-node that still has a parent, that
node's own line instead uses the end connector if and only if it has no
children. -/
theorem c2_edge_selection :
    (∀ level ended chain ns,
      printNodes level ended chain ns =
        String.join ((nodesTrace level ended chain ns).map emitEv)) ∧
      (∀ sibs level ended chain i rem, sibs.drop i = rem →
        ∀ ev ∈ nodesTraceAux sibs level ended chain i rem,
          ev.sibs[ev.idx]? = some ev.node ∧
            (ev.edge = EdgeTypeEnd ↔ ev.idx + 1 = ev.sibs.length) ∧
            (ev.edge = EdgeTypeMid ↔ ¬ev.idx + 1 = ev.sibs.length)) ∧
      (∀ (b : Bool) (ch : List Bool) (n : Node),
        Node.Writer (b :: ch) n =
          (if n.Nodes.isEmpty then printValues 0 [0] EdgeTypeEnd (b :: ch) n
           else printValues 0 [] EdgeTypeMid (b :: ch) n ++
             printNodes 0 [] (b :: ch) n.Nodes)) := by
  refine ⟨printNodes_eq_trace, traceAux_position, ?_⟩
  intro b ch n
  rfl

def c2Leaf : Node := Node.mk none (Val.str "A") []

def c2Ev : LineEv := LineEv.mk [c2Leaf] 0 0 [0] EdgeTypeEnd [true] c2Leaf

/-- Witness for C2 (amended) at a one-child walk: the single recorded line
is at index `0` of a one-element sibling slice and carries the end
connector. -/
theorem c2_edge_selection_witness :
    c2Ev.sibs[c2Ev.idx]? = some c2Ev.node ∧
      (c2Ev.edge = EdgeTypeEnd ↔ c2Ev.idx + 1 = c2Ev.sibs.length) ∧
      (c2Ev.edge = EdgeTypeMid ↔ ¬c2Ev.idx + 1 = c2Ev.sibs.length) :=
  c2_edge_selection.2.1 [c2Leaf] 0 [] [] 0 [c2Leaf] rfl c2Ev
    (List.mem_singleton_self c2Ev)

/-- C3: in a render from a parentless root, every recorded node line begins
with the level prefix, and that prefix is one segment per depth
`0 .. level-1`: blank padding of `IndentSize + 1` spaces when the render
path ancestor at that depth was a last sibling (`true` in the recorded
upward chain, equivalently: the depth is in the ended-levels slice),
otherwise the vertical link followed by `IndentSize` spaces; moreover the
ended-levels slice is a plain value: the tail of a sibling walk is rendered
with the same slice and chain whatever the preceding sibling's subtree did
to its own copies. -/
theorem c3_level_prefix :
    (∀ ns, ∀ ev ∈ nodesTrace 0 [] [] ns,
      (∃ rest, printValues ev.level ev.ended ev.edge ev.chain ev.node =
          linePrefix ev.level ev.ended ++ rest) ∧
        linePrefix ev.level ev.ended =
          String.join ((List.range ev.level).map fun d =>
            padSegment (ev.chain.reverse[d]?.getD false))) ∧
      (∀ level ended chain node next rest,
        printNodes level ended chain (node :: next :: rest) =
          printValues level ended EdgeTypeMid (false :: chain) node ++
            ((if node.Nodes.isEmpty then ""
              else printSub (level + 1) ended (false :: chain) node) ++
              printNodes level ended chain (next :: rest))) := by
  constructor
  · intro ns ev hev
    obtain ⟨hlen, hiff⟩ := trace_chain ns ev hev
    constructor
    · exact ⟨_, rfl⟩
    · rw [linePrefix]
      apply congrArg String.join
      apply List.map_congr_left
      intro d hd
      rw [List.mem_range] at hd
      have hdlt : d < ev.chain.reverse.length := by
        rw [List.length_reverse, hlen]
        omega
      obtain ⟨b, hb⟩ : ∃ b, ev.chain.reverse[d]? = some b :=
        ⟨ev.chain.reverse[d], List.getElem?_eq_getElem hdlt⟩
      rw [hb]
      cases b with
      | true =>
          rw [(hiff d).mpr hb]
          rfl
      | false =>
          have hfalse : isEnded ev.ended d = false := by
            cases hie : isEnded ev.ended d
            · rfl
            · rw [(hiff d).mp hie] at hb
              exact absurd (Option.some.inj hb) (by decide)
          rw [hfalse]
          rfl
  · intro level ended chain node next rest
    rfl

def c3Leaf : Node := Node.mk none (Val.str "A") []

def c3Ev : LineEv := LineEv.mk [c3Leaf] 0 0 [0] EdgeTypeEnd [true] c3Leaf

/-- Witness for C3 at a one-child walk from the root. -/
theorem c3_level_prefix_witness :
    (∃ rest, printValues c3Ev.level c3Ev.ended c3Ev.edge c3Ev.chain c3Ev.node =
        linePrefix c3Ev.level c3Ev.ended ++ rest) ∧
      linePrefix c3Ev.level c3Ev.ended =
        String.join ((List.range c3Ev.level).map fun d =>
          padSegment (c3Ev.chain.reverse[d]?.getD false)) :=
  c3_level_prefix.1 [c3Leaf] c3Ev (List.mem_singleton_self c3Ev)

/-- C4: in a render from a parentless root, a node whose formatted value
splits at newlines into more than one line renders as the first line
followed by the remaining lines each prefixed with the padding obtained
from the upward walk: one segment per ancestor-or-self, blank where the
node at that step was the last sibling of its own parent, a vertical link
plus indent spaces where it was not, concatenated root-most first
(`ev.chain` is self-first, so its reverse is walk-up root-most first). -/
theorem c4_multiline_padding :
    ∀ ns, ∀ ev ∈ nodesTrace 0 [] [] ns,
      ∀ l0 ls, splitLines (Val.format ev.node.Value) = l0 :: ls → ls ≠ [] →
        renderValue ev.level ev.chain ev.node =
          String.intercalate "\n"
            (l0 :: ls.map fun l =>
              String.join (ev.chain.reverse.map padSegment) ++ l) := by
  intro ns ev hev l0 ls hsplit hne
  obtain ⟨hlen, _⟩ := trace_chain ns ev hev
  cases ls with
  | nil => exact absurd rfl hne
  | cons l1 lrest =>
      rw [renderValue]
      rw [hsplit]
      rw [if_neg (by simp)]
      rw [padding_eq_chain ev.level ev.chain hlen]

def c4Leaf : Node := Node.mk none (Val.str "x\ny") []

def c4Branch : Node := Node.mk none (Val.str "a") [c4Leaf]

def c4Ev : LineEv := LineEv.mk [c4Leaf] 0 1 [0, 1] EdgeTypeEnd [true, true] c4Leaf

/-- Witness for C4: a three-level tree (root, branch `a`, leaf `"x\ny"`)
whose leaf is a last sibling under a last sibling, so both continuation
segments are blank and the second value line is indented by eight
spaces. -/
theorem c4_multiline_padding_witness :
    renderValue 1 [true, true] c4Leaf = "x\n        y" :=
  c4_multiline_padding [c4Branch] c4Ev
    (List.mem_cons_of_mem _ (List.mem_singleton_self c4Ev)) "x" ["y"] rfl
    (List.cons_ne_nil "y" [])
